import Mathlib

/-!
Verification of the regex → postfix → NFA core of `src/app.py`
(a Streamlit "Regex to NFA Converter").

Shallow embedding conventions:
* Python strings become `List Char`.
* The Python operator stack / fragment stack (a Python list whose *end* is
  the top, manipulated with `append`/`pop`) becomes a Lean `List` whose
  *head* is the top; consequently Python's `stack[0]` (the bottom) is
  `List.getLast?` here, and Python's final "pop everything" loop emits the
  list front-to-back.
* The global `State.count` counter is passed explicitly: a `State()`
  creation at counter value `n` yields the identifier `n` (the source
  formats it as the string `f"q{n}"`, which is injective in `n`, so the
  numeric counter value faithfully stands for the identifier) and bumps
  the counter to `n + 1`.
* `st.error(...)` followed by `return None, None, []` in `build_nfa` is
  modelled as `Except.error` carrying a `BuildError` value that records
  which of the distinct `st.error` messages was produced; the `.error`
  result carries no start state, no accept state and no transitions,
  matching the `(None, None, [])` triple of the source.
* The `is_final` flags mutated on `State` objects never influence the
  returned `(start, end, transitions)` data (only `.id` fields reach the
  transition list), so they are not modelled.
-/

/-- One iteration of the loop body of `add_concat_operator` (src/app.py
lines 14-17) on the adjacent pair `p = (regex[i], regex[i+1])`: emit
`regex[i]`, and emit `'.'` after it when `regex[i] not in '(|'` and
`regex[i+1] not in '|)*'`. -/
def concatStep (result : List Char) (p : Char × Char) : List Char :=
  result ++ [p.1] ++
    (if p.1 ∉ ['(', '|'] ∧ p.2 ∉ ['|', ')', '*'] then ['.'] else [])

/-- The nested helper `add_concat_operator` of ` infix_to_postfix`
(src/app.py lines 12-19): loop `concatStep` over each index `i` in
`range(len(regex) - 1)` — rendered as a fold over the adjacent pairs
`regex.zip (regex.drop 1)` — then emit the last character
(`result += regex[-1] if regex else ""`). -/
def add_concat_operator (regex : List Char) : List Char :=
  (regex.zip (regex.drop 1)).foldl concatStep []
  ++ (match regex.getLast? with
      | some c => [c]
      | none => [])

/-- The precedence table `{'|': 1, '.': 2, '*': 3}` (src/app.py line 25);
`none` models absence from the Python dict. -/
def precedence (c : Char) : Option Nat :=
  if c = '|' then some 1 else if c = '.' then some 2 else if c = '*' then some 3 else none

/-- The `while stack and stack[-1] != '(':` loop of the `')'` branch
(src/app.py lines 34-35): pop operators from the stack onto the output
until the top is `'('` or the stack is empty. -/
def popUntilLparen (out stk : List Char) : List Char × List Char :=
  match stk with
  | [] => (out, [])
  | top :: rest =>
    if top = '(' then (out, top :: rest) else popUntilLparen (out ++ [top]) rest

/-- The `while stack and stack[-1] != '(' and precedence.get(stack[-1], 0) >=
precedence.get(c, 0):` loop of the operator branch (src/app.py lines 39-40). -/
def popGE (c : Char) (out stk : List Char) : List Char × List Char :=
  match stk with
  | [] => (out, [])
  | top :: rest =>
    if top ≠ '(' ∧ (precedence top).getD 0 ≥ (precedence c).getD 0 then
      popGE c (out ++ [top]) rest
    else (out, top :: rest)

/-- One iteration of the `for c in new_regex:` dispatch of
` infix_to_postfix` (src/app.py lines 28-41), acting on the pair
(output, operator stack). -/
def shuntStep (s : List Char × List Char) (c : Char) : List Char × List Char :=
  let (out, stk) := s
  if precedence c = none ∧ c ≠ '(' ∧ c ≠ ')' then
    (out ++ [c], stk)
  else if c = '(' then
    (out, c :: stk)
  else if c = ')' then
    let (out2, stk2) := popUntilLparen out stk
    match stk2 with
    | top :: rest => if top = '(' then (out2, rest) else (out2, top :: rest)
    | [] => (out2, [])
  else
    let (out2, stk2) := popGE c out stk
    (out2, c :: stk2)

/-- ` infix_to_postfix` (src/app.py lines 10-46): insert implicit
concatenation markers, run the shunting-yard dispatch over every character,
then flush the remaining operator stack onto the output
(`while stack: output.append(stack.pop())`, i.e. top first). -/
def infix_to_postfix (regex : List Char) : List Char :=
  let new_regex := add_concat_operator regex
  let res := new_regex.foldl shuntStep ([], [])
  res.1 ++ res.2

/-- A Thompson fragment as pushed on the `build_nfa` stack
(src/app.py): the tuple `(start, end, transitions)`, with states
represented by their numeric identifiers. -/
structure Frag where
  entry : Nat
  exit : Nat
  trans : List (Nat × Char × Nat)
deriving DecidableEq, Repr

/-- The distinct `st.error` messages of `build_nfa` (src/app.py lines
67, 76, 95, 111), each followed in the source by `return None, None, []`. -/
inductive BuildError where
  /-- "Invalid expression: not enough operands for `op` operation". -/
  | insufficientOperands (op : Char)
  /-- "Invalid expression: no valid NFA constructed". -/
  | noValidNFA
deriving DecidableEq, Repr

/-- The epsilon label, the literal character `'ε'` used by the source. -/
def eps : Char := 'ε'

/-- The `for c in postfix:` loop of `build_nfa` (src/app.py lines 59-108),
threading the fragment stack (head = top) and the `State.count` counter.
Each `State()` call yields the current counter value and bumps it. -/
def buildLoop : List Char → List Frag → Nat → Except BuildError (List Frag × Nat)
  | [], stack, cnt => .ok (stack, cnt)
  | c :: rest, stack, cnt =>
    if c ≠ '*' ∧ c ≠ '|' ∧ c ≠ '.' then
      -- symbol: start, end = State(), State(); push (start, end, [(start, c, end)])
      buildLoop rest (⟨cnt, cnt + 1, [(cnt, c, cnt + 1)]⟩ :: stack) (cnt + 2)
    else if c = '.' then
      match stack with
      | s2 :: s1 :: rest' =>
        buildLoop rest
          (⟨s1.entry, s2.exit, s1.trans ++ [(s1.exit, eps, s2.entry)] ++ s2.trans⟩ :: rest')
          cnt
      | _ => .error (.insufficientOperands '.')
    else if c = '|' then
      match stack with
      | s2 :: s1 :: rest' =>
        buildLoop rest
          (⟨cnt, cnt + 1,
            [(cnt, eps, s1.entry), (cnt, eps, s2.entry)] ++ s1.trans ++ s2.trans ++
              [(s1.exit, eps, cnt + 1), (s2.exit, eps, cnt + 1)]⟩ :: rest')
          (cnt + 2)
      | _ => .error (.insufficientOperands '|')
    else
      match stack with
      | s :: rest' =>
        buildLoop rest
          (⟨cnt, cnt + 1,
            [(cnt, eps, s.entry), (cnt, eps, cnt + 1)] ++ s.trans ++
              [(s.exit, eps, s.entry), (s.exit, eps, cnt + 1)]⟩ :: rest')
          (cnt + 2)
      | [] => .error (.insufficientOperands '*')

/-- `build_nfa` (src/app.py lines 56-114), parametrised by the value `c0`
of the global `State.count` at the start of the invocation.  After the
loop, an empty stack gives the "no valid NFA constructed" error; otherwise
the source returns `stack[0]` — the *bottom* fragment, i.e. `getLast?` of
the head-is-top list. -/
def build_nfa (c0 : Nat) (pfx : List Char) :
    Except BuildError (Nat × Nat × List (Nat × Char × Nat)) :=
  match buildLoop pfx [] c0 with
  | .error e => .error e
  | .ok (stack, _) =>
    match stack.getLast? with
    | none => .error .noValidNFA
    | some f => .ok (f.entry, f.exit, f.trans)

/-- The four kinds of message appended to `errors` by `validate_regex`
(src/app.py lines 175-197). -/
inductive ValidationIssue where
  /-- "Unbalanced parentheses: `o` opening vs `c` closing". -/
  | unbalancedParens (opened closed : Nat)
  /-- "Expression cannot start with '|' or '*'". -/
  | startsWithOperator
  /-- "Expression cannot end with '|'". -/
  | endsWithBar
  /-- "Cannot have consecutive '|' operators". -/
  | consecutiveBars
deriving DecidableEq, Repr

/-- One iteration of the consecutive-`'|'` loop of `validate_regex`
(src/app.py lines 193-195) on the adjacent pair `p`. -/
def consecStep (acc : List ValidationIssue) (p : Char × Char) : List ValidationIssue :=
  if p.1 = '|' ∧ p.2 = '|' then acc ++ [.consecutiveBars] else acc

/-- `validate_regex` (src/app.py lines 175-197): the `errors` list built by
the four independent checks, in source order.  The final index loop over
`range(len(regex) - 1)` is rendered as a fold of `consecStep` over the
adjacent pairs. -/
def validate_regex (regex : List Char) : List ValidationIssue :=
  (if regex.count '(' ≠ regex.count ')' then
      [.unbalancedParens (regex.count '(') (regex.count ')')]
    else []) ++
  (if regex.head? = some '|' ∨ regex.head? = some '*' then [.startsWithOperator] else []) ++
  (if regex.getLast? = some '|' then [.endsWithBar] else []) ++
  (regex.zip (regex.drop 1)).foldl consecStep []

/-- Restatement of the spec's implicit-concatenation rule as structural
recursion: between adjacent characters `a`, `b` a marker `'.'` is inserted
exactly when `a` is not `'('` and not `'|'` and `b` is not `'|'`, `')'` or
`'*'`; strings of length ≤ 1 are unchanged.  Used to characterise
`add_concat_operator`. -/
def addConcatSpec : List Char → List Char
  | [] => []
  | [c] => [c]
  | a :: b :: rest =>
    a :: ((if a ∉ ['(', '|'] ∧ b ∉ ['|', ')', '*'] then ['.'] else []) ++
      addConcatSpec (b :: rest))

/-- The set of states of a returned automaton: start, accept, and every
source or destination of a transition, without duplicates. -/
def statesOf (start accept : Nat) (ts : List (Nat × Char × Nat)) : List Nat :=
  (start :: accept :: (ts.map (fun t => t.1) ++ ts.map (fun t => t.2.2))).dedup

/-- Rename every state identifier of a transition by adding `d`. -/
def transShift (d : Nat) (t : Nat × Char × Nat) : Nat × Char × Nat :=
  (t.1 + d, t.2.1, t.2.2 + d)

/-- Rename every state identifier of a fragment by adding `d`. -/
def fragShift (d : Nat) (f : Frag) : Frag :=
  ⟨f.entry + d, f.exit + d, f.trans.map (transShift d)⟩

/-- Both state identifiers of a transition are below `n`. -/
def transBound (n : Nat) (t : Nat × Char × Nat) : Prop :=
  t.1 < n ∧ t.2.2 < n

/-- Every state identifier of a fragment is below `n` (i.e. was created
while the counter was still below `n`). -/
def fragBound (n : Nat) (f : Frag) : Prop :=
  f.entry < n ∧ f.exit < n ∧ ∀ t ∈ f.trans, transBound n t

/-! ## Helper lemmas for the shunting-yard phase -/

lemma popUntilLparen_no_lparen (stk : List Char) :
    ∀ out : List Char, '(' ∉ stk → popUntilLparen out stk = (out ++ stk, []) := by
  induction stk with
  | nil => intro out _; simp [popUntilLparen]
  | cons top rest ih =>
    intro out h
    simp only [List.mem_cons, not_or] at h
    have h1 : top ≠ '(' := fun e => h.1 e.symm
    simp [popUntilLparen, h1, ih (out ++ [top]) h.2]

lemma shuntStep_rparen_no_lparen (out stk : List Char) (h : '(' ∉ stk) :
    shuntStep (out, stk) ')' = (out ++ stk, []) := by
  have hp := popUntilLparen_no_lparen stk out h
  simp [shuntStep, precedence, hp]

/-- C1: the spec claims `compile_to_postfix` fails with
`UnbalancedParenError` on unbalanced parentheses; in fact
` infix_to_postfix("(a")` returns the string `"a("` (the stray `'('` is
flushed into the output and no error of any kind is signalled). -/
theorem c1_unbalanced_counterexample :
    infix_to_postfix ['(', 'a'] = ['a', '('] := rfl

/-- C1 (amended): ` infix_to_postfix` signals no error on unbalanced
parentheses: a `')'` processed while no `'('` is on the operator stack
pops the whole stack to the output and is itself discarded, and a `'('`
remaining on the stack after all input is consumed is appended to the
output; in particular ` infix_to_postfix("(a")` returns `"a("` and
` infix_to_postfix("a)")` returns `"a"`. -/
theorem c1_unbalanced_amended :
    (∀ out stk : List Char, '(' ∉ stk → shuntStep (out, stk) ')' = (out ++ stk, [])) ∧
    infix_to_postfix ['(', 'a'] = ['a', '('] ∧
    infix_to_postfix ['a', ')'] = ['a'] :=
  ⟨fun out stk h => shuntStep_rparen_no_lparen out stk h, rfl, rfl⟩

/-- Witness for C1 (amended) at `out = "a"`, `stk = "|"`. -/
theorem c1_unbalanced_amended_witness :
    shuntStep (['a'], ['|']) ')' = (['a', '|'], []) :=
  c1_unbalanced_amended.1 ['a'] ['|'] (by decide)

/-- C2: the code does fail on `build("")` (the "no valid NFA constructed"
message, the source's rendering of `EmptyExpressionError`), but on the
two-fragment input `"ab"` it does *not* fail: it silently returns the
bottom fragment `stack[0]`, the automaton of `'a'` alone — the latent
defect §9 of the spec flags. -/
theorem c2_residual_fragments_eval :
    build_nfa 0 ['a', 'b'] = .ok (0, 1, [(0, 'a', 1)]) ∧
    build_nfa 0 [] = .error .noValidNFA :=
  ⟨rfl, rfl⟩

/-- C3: `build("a*")` (counter seeded at 0) yields exactly the automaton
with start 2, accept 3 and the five transitions in the star case's
construction order: entry/skip epsilons, then the symbol transition, then
the loop-back and exit epsilons; it has exactly 4 distinct states and no
symbol-labelled transition out of the start state. -/
theorem c3_star_shape :
    build_nfa 0 ['a', '*'] =
      .ok (2, 3, [(2, eps, 0), (2, eps, 3), (0, 'a', 1), (1, eps, 0), (1, eps, 3)]) ∧
    (statesOf 2 3 [(2, eps, 0), (2, eps, 3), (0, 'a', 1), (1, eps, 0), (1, eps, 3)]).length = 4 ∧
    ([(2, eps, 0), (2, eps, 3), (0, 'a', 1), (1, eps, 0), (1, eps, 3)] :
        List (Nat × Char × Nat)).length = 5 ∧
    (([(2, eps, 0), (2, eps, 3), (0, 'a', 1), (1, eps, 0), (1, eps, 3)] :
        List (Nat × Char × Nat)).all fun t => !(t.1 == 2) || (t.2.1 == eps)) = true := by
  refine ⟨rfl, ?_, rfl, ?_⟩ <;> decide

/-- C4: the spec's example table is wrong about `compile_to_postfix("ab")`:
the code returns `"ab."` (postfix), not `"a.b"`. -/
theorem c4_examples_counterexample :
    infix_to_postfix ['a', 'b'] ≠ ['a', '.', 'b'] := by decide

/-- C4 (amended): `compile_to_postfix` maps `"a|b"` to `"ab|"`, `"ab"` to
`"ab."`, `"a*b"` to `"a*b."` and `"(a|b)*c"` to `"ab|*c."` (the outputs
for `"ab"` and `"a*b"` are proper postfix, with the concatenation operator
after its operands, not the spec's `"a.b"` / `"a*.b"`). -/
theorem c4_examples_amended :
    infix_to_postfix ['a', '|', 'b'] = ['a', 'b', '|'] ∧
    infix_to_postfix ['a', 'b'] = ['a', 'b', '.'] ∧
    infix_to_postfix ['a', '*', 'b'] = ['a', '*', 'b', '.'] ∧
    infix_to_postfix ['(', 'a', '|', 'b', ')', '*', 'c'] = ['a', 'b', '|', '*', 'c', '.'] :=
  ⟨rfl, rfl, rfl, rfl⟩

lemma popUntilLparen_append (stk : List Char) :
    ∀ out : List Char, (popUntilLparen out stk).1 ++ (popUntilLparen out stk).2 = out ++ stk := by
  induction stk with
  | nil => intro out; simp [popUntilLparen]
  | cons top rest ih =>
    intro out
    by_cases h : top = '('
    · simp [popUntilLparen, h]
    · simp only [popUntilLparen, if_neg h]
      rw [ih (out ++ [top])]
      simp

lemma popGE_append (c : Char) (stk : List Char) :
    ∀ out : List Char, (popGE c out stk).1 ++ (popGE c out stk).2 = out ++ stk := by
  induction stk with
  | nil => intro out; simp [popGE]
  | cons top rest ih =>
    intro out
    by_cases h : top ≠ '(' ∧ (precedence top).getD 0 ≥ (precedence c).getD 0
    · simp only [popGE, if_pos h]
      rw [ih (out ++ [top])]
      simp
    · simp [popGE, if_neg h]

lemma shuntStep_mem (out stk : List Char) (c x : Char)
    (hx : x ∈ (shuntStep (out, stk) c).1 ∨ x ∈ (shuntStep (out, stk) c).2) :
    x ∈ out ∨ x ∈ stk ∨ (x = c ∧ c ≠ ')') := by
  simp only [shuntStep] at hx
  by_cases h1 : precedence c = none ∧ c ≠ '(' ∧ c ≠ ')'
  · rw [if_pos h1] at hx
    rcases hx with hx | hx
    · rcases List.mem_append.mp hx with hx | hx
      · exact Or.inl hx
      · exact Or.inr (Or.inr ⟨List.mem_singleton.mp hx, h1.2.2⟩)
    · exact Or.inr (Or.inl hx)
  · rw [if_neg h1] at hx
    by_cases h2 : c = '('
    · rw [if_pos h2] at hx
      rcases hx with hx | hx
      · exact Or.inl hx
      · rcases List.mem_cons.mp hx with hx | hx
        · subst hx; subst h2; exact Or.inr (Or.inr ⟨rfl, by decide⟩)
        · exact Or.inr (Or.inl hx)
    · rw [if_neg h2] at hx
      by_cases h3 : c = ')'
      · rw [if_pos h3] at hx
        have hap := popUntilLparen_append stk out
        have hsub : ∀ y : Char, y ∈ (popUntilLparen out stk).1 → y ∈ out ∨ y ∈ stk := by
          intro y hy
          have : y ∈ out ++ stk := hap ▸ List.mem_append.mpr (Or.inl hy)
          exact List.mem_append.mp this
        have hsub2 : ∀ y : Char, y ∈ (popUntilLparen out stk).2 → y ∈ out ∨ y ∈ stk := by
          intro y hy
          have : y ∈ out ++ stk := hap ▸ List.mem_append.mpr (Or.inr hy)
          exact List.mem_append.mp this
        rcases hu : popUntilLparen out stk with ⟨out2, stk2⟩
        rw [hu] at hx hsub hsub2
        dsimp only at hx hsub hsub2
        cases stk2 with
        | nil =>
          dsimp only at hx
          rcases hx with hx | hx
          · rcases hsub x hx with h | h
            · exact Or.inl h
            · exact Or.inr (Or.inl h)
          · simp at hx
        | cons t r =>
          dsimp only at hx
          by_cases ht : t = '('
          · rw [if_pos ht] at hx
            rcases hx with hx | hx
            · rcases hsub x hx with h | h
              · exact Or.inl h
              · exact Or.inr (Or.inl h)
            · rcases hsub2 x (List.mem_cons_of_mem t hx) with h | h
              · exact Or.inl h
              · exact Or.inr (Or.inl h)
          · rw [if_neg ht] at hx
            rcases hx with hx | hx
            · rcases hsub x hx with h | h
              · exact Or.inl h
              · exact Or.inr (Or.inl h)
            · rcases hsub2 x hx with h | h
              · exact Or.inl h
              · exact Or.inr (Or.inl h)
      · rw [if_neg h3] at hx
        have hap := popGE_append c stk out
        rcases hx with hx | hx
        · have : x ∈ out ++ stk := hap ▸ List.mem_append.mpr (Or.inl hx)
          rcases List.mem_append.mp this with h | h
          · exact Or.inl h
          · exact Or.inr (Or.inl h)
        · rcases List.mem_cons.mp hx with hx | hx
          · exact Or.inr (Or.inr ⟨hx, h3⟩)
          · have : x ∈ out ++ stk := hap ▸ List.mem_append.mpr (Or.inr hx)
            rcases List.mem_append.mp this with h | h
            · exact Or.inl h
            · exact Or.inr (Or.inl h)

lemma shuntFold_no_rparen (l : List Char) :
    ∀ s : List Char × List Char, ')' ∉ s.1 → ')' ∉ s.2 →
      ')' ∉ (l.foldl shuntStep s).1 ∧ ')' ∉ (l.foldl shuntStep s).2 := by
  induction l with
  | nil => intro s h1 h2; exact ⟨h1, h2⟩
  | cons c rest ih =>
    intro s h1 h2
    have e : shuntStep s c = shuntStep (s.1, s.2) c := by
      cases s; rfl
    have hn1 : ')' ∉ (shuntStep s c).1 := by
      rw [e]; intro hx
      rcases shuntStep_mem s.1 s.2 c ')' (Or.inl hx) with h | h | ⟨heq, hne⟩
      · exact h1 h
      · exact h2 h
      · exact hne heq.symm
    have hn2 : ')' ∉ (shuntStep s c).2 := by
      rw [e]; intro hx
      rcases shuntStep_mem s.1 s.2 c ')' (Or.inr hx) with h | h | ⟨heq, hne⟩
      · exact h1 h
      · exact h2 h
      · exact hne heq.symm
    exact ih (shuntStep s c) hn1 hn2

/-- C10: a `')'` met while no `'('` is on the operator stack is silently
discarded by ` infix_to_postfix` — no error is signalled (the function is
total), the `')'` itself is never emitted (the step only moves already
stacked operators to the output) — and the returned postfix string never
contains the character `')'` for any input whatsoever. -/
theorem c10_rparen_never_output :
    (∀ regex : List Char, ')' ∉ infix_to_postfix regex) ∧
    (∀ out stk : List Char, '(' ∉ stk → shuntStep (out, stk) ')' = (out ++ stk, [])) := by
  constructor
  · intro regex
    have h := shuntFold_no_rparen (add_concat_operator regex) ([], [])
      (by simp) (by simp)
    show ')' ∉
      ((add_concat_operator regex).foldl shuntStep ([], [])).1 ++
        ((add_concat_operator regex).foldl shuntStep ([], [])).2
    rw [List.mem_append]
    rintro (hx | hx)
    · exact h.1 hx
    · exact h.2 hx
  · exact fun out stk h => shuntStep_rparen_no_lparen out stk h

/-- Witness for C10 at the input `"a)b"` and at the stack `"."`. -/
theorem c10_rparen_never_output_witness :
    (')' ∉ infix_to_postfix ['a', ')', 'b']) ∧ shuntStep ([], ['.']) ')' = (['.'], []) :=
  ⟨c10_rparen_never_output.1 ['a', ')', 'b'],
   c10_rparen_never_output.2 [] ['.'] (by decide)⟩

lemma concatFold_acc (pairs : List (Char × Char)) :
    ∀ acc : List Char, pairs.foldl concatStep acc = acc ++ pairs.foldl concatStep [] := by
  induction pairs with
  | nil => intro acc; simp
  | cons p rest ih =>
    intro acc
    simp only [List.foldl_cons]
    rw [ih (concatStep acc p), ih (concatStep [] p)]
    simp [concatStep]

lemma add_concat_eq_spec (regex : List Char) :
    add_concat_operator regex = addConcatSpec regex := by
  induction regex with
  | nil => rfl
  | cons a rest ih =>
    cases rest with
    | nil => rfl
    | cons b rest2 =>
      have hz : (a :: b :: rest2).zip ((a :: b :: rest2).drop 1) =
          (a, b) :: ((b :: rest2).zip ((b :: rest2).drop 1)) := by
        simp [List.drop_one]
      rw [add_concat_operator, hz, List.foldl_cons,
        concatFold_acc ((b :: rest2).zip ((b :: rest2).drop 1)) (concatStep [] (a, b)),
        List.getLast?_cons_cons]
      simp only [addConcatSpec]
      rw [← ih, add_concat_operator]
      simp [concatStep]

lemma add_concat_getLast? (regex : List Char) :
    (add_concat_operator regex).getLast? = regex.getLast? := by
  cases hr : regex.getLast? with
  | none =>
    have h := List.getLast?_eq_none_iff.mp hr
    subst h; rfl
  | some c =>
    rw [add_concat_operator, hr]
    exact List.getLast?_concat _

/-- C5: the implicit-concatenation pass inserts `'.'` between positions
`i` and `i+1` exactly when `regex[i]` is not `'('` and not `'|'` and
`regex[i+1]` is not `'|'`, `')'` or `'*'` (the pairwise recursion
`addConcatSpec` states precisely this rule); a string of length 0 or 1 is
returned unchanged, and no marker is ever inserted after the final
character (the last character of the output is the last character of the
input). -/
theorem c5_concat_marker_insertion :
    (∀ regex : List Char, add_concat_operator regex = addConcatSpec regex) ∧
    (∀ regex : List Char, regex.length ≤ 1 → add_concat_operator regex = regex) ∧
    (∀ regex : List Char, (add_concat_operator regex).getLast? = regex.getLast?) := by
  refine ⟨add_concat_eq_spec, ?_, add_concat_getLast?⟩
  intro regex h
  rcases regex with _ | ⟨a, _ | ⟨b, r2⟩⟩
  · rfl
  · rfl
  · simp only [List.length_cons] at h; omega

/-- Witness for C5 at the length-1 input `"a"` and the input `"ab"`. -/
theorem c5_concat_marker_insertion_witness :
    add_concat_operator ['a'] = ['a'] ∧
    add_concat_operator ['a', 'b'] = addConcatSpec ['a', 'b'] :=
  ⟨c5_concat_marker_insertion.2.1 ['a'] (by decide),
   c5_concat_marker_insertion.1 ['a', 'b']⟩

/-- C6: an operator met with too few fragments on the construction stack
makes the whole build fail at once with the "not enough operands" error
for that operator (`'.'` and `'|'` need at least 2 fragments, `'*'` at
least 1), and a failed build never returns an automaton (in the source the
failing paths return `(None, None, [])`: no start state, no accept state,
no transitions — here the `.error` result carries no automaton at all). -/
theorem c6_insufficient_operands :
    (∀ (rest : List Char) (stack : List Frag) (cnt : Nat), stack.length < 2 →
      buildLoop ('.' :: rest) stack cnt = .error (.insufficientOperands '.')) ∧
    (∀ (rest : List Char) (stack : List Frag) (cnt : Nat), stack.length < 2 →
      buildLoop ('|' :: rest) stack cnt = .error (.insufficientOperands '|')) ∧
    (∀ (rest : List Char) (cnt : Nat),
      buildLoop ('*' :: rest) [] cnt = .error (.insufficientOperands '*')) ∧
    (∀ (c0 : Nat) (p : List Char) (e : BuildError)
        (r : Nat × Nat × List (Nat × Char × Nat)),
      build_nfa c0 p = .error e → build_nfa c0 p ≠ .ok r) := by
  refine ⟨?_, ?_, ?_, ?_⟩
  · intro rest stack cnt h
    rcases stack with _ | ⟨f1, _ | ⟨f2, fs⟩⟩
    · rfl
    · rfl
    · simp only [List.length_cons] at h; omega
  · intro rest stack cnt h
    rcases stack with _ | ⟨f1, _ | ⟨f2, fs⟩⟩
    · rfl
    · rfl
    · simp only [List.length_cons] at h; omega
  · intro rest cnt; rfl
  · intro c0 p e r he
    rw [he]
    simp

/-- Witness for C6 with each operator first in the input and an empty
stack. -/
theorem c6_insufficient_operands_witness :
    buildLoop ['.'] [] 0 = .error (.insufficientOperands '.') ∧
    buildLoop ['|'] [] 0 = .error (.insufficientOperands '|') ∧
    buildLoop ['*'] [] 0 = .error (.insufficientOperands '*') :=
  ⟨c6_insufficient_operands.1 [] [] 0 (by decide),
   c6_insufficient_operands.2.1 [] [] 0 (by decide),
   c6_insufficient_operands.2.2.1 [] 0⟩

lemma consecFold_acc (pairs : List (Char × Char)) :
    ∀ acc : List ValidationIssue,
      pairs.foldl consecStep acc = acc ++ pairs.foldl consecStep [] := by
  induction pairs with
  | nil => intro acc; simp
  | cons p rest ih =>
    intro acc
    simp only [List.foldl_cons]
    rw [ih (consecStep acc p), ih (consecStep [] p)]
    by_cases h : p.1 = '|' ∧ p.2 = '|' <;> simp [consecStep, h]

lemma consecFold_mem (pairs : List (Char × Char)) :
    ∀ (acc : List ValidationIssue) (y : ValidationIssue),
      y ∈ pairs.foldl consecStep acc → y ∈ acc ∨ y = ValidationIssue.consecutiveBars := by
  induction pairs with
  | nil => intro acc y h; exact Or.inl h
  | cons p rest ih =>
    intro acc y h
    simp only [List.foldl_cons] at h
    rcases ih (consecStep acc p) y h with h2 | h2
    · by_cases hc : p.1 = '|' ∧ p.2 = '|'
      · simp only [consecStep, if_pos hc, List.mem_append, List.mem_singleton] at h2
        rcases h2 with h2 | h2
        · exact Or.inl h2
        · exact Or.inr h2
      · simp only [consecStep, if_neg hc] at h2
        exact Or.inl h2
    · exact Or.inr h2

lemma consecFold_eq_nil_iff (l : List Char) :
    (l.zip (l.drop 1)).foldl consecStep [] = [] ↔
      l.Chain' (fun a b => ¬(a = '|' ∧ b = '|')) := by
  induction l with
  | nil => simp
  | cons a rest ih =>
    cases rest with
    | nil => simp
    | cons b l2 =>
      have hz : (a :: b :: l2).zip ((a :: b :: l2).drop 1) =
          (a, b) :: ((b :: l2).zip ((b :: l2).drop 1)) := by
        simp [List.drop_one]
      rw [hz, List.foldl_cons,
        consecFold_acc ((b :: l2).zip ((b :: l2).drop 1)) (consecStep [] (a, b)),
        List.chain'_cons, ← ih]
      by_cases hc : a = '|' ∧ b = '|' <;> simp [consecStep, hc]

lemma ite_singleton_eq_nil_iff {α : Type} (c : Prop) [Decidable c] (x : α) :
    (if c then [x] else []) = [] ↔ ¬c := by
  by_cases h : c <;> simp [h]

lemma mem_ite_singleton {α : Type} (c : Prop) [Decidable c] (x y : α) :
    y ∈ (if c then [x] else []) ↔ c ∧ y = x := by
  by_cases h : c <;> simp [h]

lemma validate_mem_char (regex : List Char) (y : ValidationIssue) :
    y ∈ validate_regex regex ↔
      ((regex.count '(' ≠ regex.count ')') ∧
        y = ValidationIssue.unbalancedParens (regex.count '(') (regex.count ')')) ∨
      ((regex.head? = some '|' ∨ regex.head? = some '*') ∧
        y = ValidationIssue.startsWithOperator) ∨
      (regex.getLast? = some '|' ∧ y = ValidationIssue.endsWithBar) ∨
      y ∈ (regex.zip (regex.drop 1)).foldl consecStep [] := by
  simp only [validate_regex, List.mem_append, mem_ite_singleton, or_assoc]

lemma consecFold_only_bars (regex : List Char) (y : ValidationIssue)
    (hy : y ∈ (regex.zip (regex.drop 1)).foldl consecStep []) :
    y = ValidationIssue.consecutiveBars := by
  rcases consecFold_mem _ [] y hy with h | h
  · simp at h
  · exact h

/-- C9: `validate_regex` returns the empty sequence exactly when the count
of `'('` equals the count of `')'`, the string does not start with `'|'`
or `'*'`, does not end with `'|'`, and has no two consecutive `'|'`
characters; and the four checks are independent — each failed check
contributes its issue to the result whatever the other checks do. -/
theorem c9_validate_checks :
    ∀ regex : List Char,
    (validate_regex regex = [] ↔
      (regex.count '(' = regex.count ')' ∧
       ¬(regex.head? = some '|' ∨ regex.head? = some '*') ∧
       regex.getLast? ≠ some '|' ∧
       regex.Chain' (fun a b => ¬(a = '|' ∧ b = '|')))) ∧
    ((regex.count '(' ≠ regex.count ')') ↔
       ValidationIssue.unbalancedParens (regex.count '(') (regex.count ')') ∈
         validate_regex regex) ∧
    ((regex.head? = some '|' ∨ regex.head? = some '*') ↔
       ValidationIssue.startsWithOperator ∈ validate_regex regex) ∧
    (regex.getLast? = some '|' ↔
       ValidationIssue.endsWithBar ∈ validate_regex regex) ∧
    (¬regex.Chain' (fun a b => ¬(a = '|' ∧ b = '|')) ↔
       ValidationIssue.consecutiveBars ∈ validate_regex regex) := by
  intro regex
  have hfold := consecFold_eq_nil_iff regex
  refine ⟨?_, ?_, ?_, ?_, ?_⟩
  · simp only [validate_regex, List.append_eq_nil, ite_singleton_eq_nil_iff, hfold,
      not_not, not_or]
    tauto
  · constructor
    · intro h
      exact (validate_mem_char regex _).mpr (Or.inl ⟨h, rfl⟩)
    · intro h
      rcases (validate_mem_char regex _).mp h with ⟨h2, _⟩ | ⟨_, he⟩ | ⟨_, he⟩ | hd
      · exact h2
      · exact absurd he (by simp)
      · exact absurd he (by simp)
      · exact absurd (consecFold_only_bars regex _ hd) (by simp)
  · constructor
    · intro h
      exact (validate_mem_char regex _).mpr (Or.inr (Or.inl ⟨h, rfl⟩))
    · intro h
      rcases (validate_mem_char regex _).mp h with ⟨_, he⟩ | ⟨h2, _⟩ | ⟨_, he⟩ | hd
      · exact absurd he (by simp)
      · exact h2
      · exact absurd he (by simp)
      · exact absurd (consecFold_only_bars regex _ hd) (by simp)
  · constructor
    · intro h
      exact (validate_mem_char regex _).mpr (Or.inr (Or.inr (Or.inl ⟨h, rfl⟩)))
    · intro h
      rcases (validate_mem_char regex _).mp h with ⟨_, he⟩ | ⟨_, he⟩ | ⟨h2, _⟩ | hd
      · exact absurd he (by simp)
      · exact absurd he (by simp)
      · exact h2
      · exact absurd (consecFold_only_bars regex _ hd) (by simp)
  · constructor
    · intro h
      have hne : (regex.zip (regex.drop 1)).foldl consecStep [] ≠ [] := by
        intro hnil
        exact h (hfold.mp hnil)
      rcases List.exists_mem_of_ne_nil _ hne with ⟨y, hy⟩
      have hyb := consecFold_only_bars regex y hy
      exact (validate_mem_char regex _).mpr (Or.inr (Or.inr (Or.inr (hyb ▸ hy))))
    · intro h
      rcases (validate_mem_char regex _).mp h with ⟨_, he⟩ | ⟨_, he⟩ | ⟨_, he⟩ | hd
      · exact absurd he (by simp)
      · exact absurd he (by simp)
      · exact absurd he (by simp)
      · intro hch
        have hnil := hfold.mpr hch
        rw [hnil] at hd
        simp at hd

/-- Witness for C9 at `regex = "a"`. -/
theorem c9_validate_checks_witness :
    validate_regex ['a'] = [] :=
  (c9_validate_checks ['a']).1.mpr
    ⟨by decide, by decide, by decide, List.chain'_singleton 'a'⟩

lemma buildLoop_shift (cs : List Char) :
    ∀ (stack : List Frag) (cnt d : Nat),
      buildLoop cs (stack.map (fragShift d)) (cnt + d) =
        (buildLoop cs stack cnt).map (fun r => (r.1.map (fragShift d), r.2 + d)) := by
  induction cs with
  | nil => intro stack cnt d; rfl
  | cons c rest ih =>
    intro stack cnt d
    simp only [buildLoop]
    by_cases h1 : c ≠ '*' ∧ c ≠ '|' ∧ c ≠ '.'
    · rw [if_pos h1, if_pos h1]
      have e1 : (⟨cnt + d, cnt + d + 1, [(cnt + d, c, cnt + d + 1)]⟩ : Frag) ::
          stack.map (fragShift d) =
          ((⟨cnt, cnt + 1, [(cnt, c, cnt + 1)]⟩ : Frag) :: stack).map (fragShift d) := by
        simp [fragShift, transShift, Nat.add_right_comm]
      have e2 : cnt + d + 2 = (cnt + 2) + d := by omega
      rw [e1, e2, ih]
    · rw [if_neg h1, if_neg h1]
      by_cases h2 : c = '.'
      · rw [if_pos h2, if_pos h2]
        cases stack with
        | nil => rfl
        | cons s2 stk2 =>
          cases stk2 with
          | nil => rfl
          | cons s1 rest' =>
            simp only [List.map_cons]
            have e1 : (⟨(fragShift d s1).entry, (fragShift d s2).exit,
                (fragShift d s1).trans ++
                  [((fragShift d s1).exit, eps, (fragShift d s2).entry)] ++
                  (fragShift d s2).trans⟩ : Frag) :: rest'.map (fragShift d) =
                ((⟨s1.entry, s2.exit,
                  s1.trans ++ [(s1.exit, eps, s2.entry)] ++ s2.trans⟩ : Frag) ::
                  rest').map (fragShift d) := by
              simp [fragShift, transShift]
            rw [e1, ih]
      · rw [if_neg h2, if_neg h2]
        by_cases h3 : c = '|'
        · rw [if_pos h3, if_pos h3]
          cases stack with
          | nil => rfl
          | cons s2 stk2 =>
            cases stk2 with
            | nil => rfl
            | cons s1 rest' =>
              simp only [List.map_cons]
              have e1 : (⟨cnt + d, cnt + d + 1,
                  [(cnt + d, eps, (fragShift d s1).entry),
                    (cnt + d, eps, (fragShift d s2).entry)] ++
                    (fragShift d s1).trans ++ (fragShift d s2).trans ++
                    [((fragShift d s1).exit, eps, cnt + d + 1),
                      ((fragShift d s2).exit, eps, cnt + d + 1)]⟩ : Frag) ::
                  rest'.map (fragShift d) =
                  ((⟨cnt, cnt + 1,
                    [(cnt, eps, s1.entry), (cnt, eps, s2.entry)] ++
                      s1.trans ++ s2.trans ++
                      [(s1.exit, eps, cnt + 1), (s2.exit, eps, cnt + 1)]⟩ : Frag) ::
                    rest').map (fragShift d) := by
                simp [fragShift, transShift, Nat.add_right_comm]
              have e2 : cnt + d + 2 = (cnt + 2) + d := by omega
              rw [e1, e2, ih]
        · rw [if_neg h3, if_neg h3]
          cases stack with
          | nil => rfl
          | cons s rest' =>
            simp only [List.map_cons]
            have e1 : (⟨cnt + d, cnt + d + 1,
                [(cnt + d, eps, (fragShift d s).entry), (cnt + d, eps, cnt + d + 1)] ++
                  (fragShift d s).trans ++
                  [((fragShift d s).exit, eps, (fragShift d s).entry),
                    ((fragShift d s).exit, eps, cnt + d + 1)]⟩ : Frag) ::
                rest'.map (fragShift d) =
                ((⟨cnt, cnt + 1,
                  [(cnt, eps, s.entry), (cnt, eps, cnt + 1)] ++ s.trans ++
                    [(s.exit, eps, s.entry), (s.exit, eps, cnt + 1)]⟩ : Frag) ::
                  rest').map (fragShift d) := by
              simp [fragShift, transShift, Nat.add_right_comm]
            have e2 : cnt + d + 2 = (cnt + 2) + d := by omega
            rw [e1, e2, ih]

lemma build_nfa_shift (c0 : Nat) (p : List Char) :
    build_nfa c0 p =
      (build_nfa 0 p).map
        (fun r => (r.1 + c0, r.2.1 + c0, r.2.2.map (transShift c0))) := by
  have h := buildLoop_shift p [] 0 c0
  simp only [List.map_nil, Nat.zero_add] at h
  unfold build_nfa
  rw [h]
  cases buildLoop p [] 0 with
  | error e => rfl
  | ok r =>
    obtain ⟨stk, cf⟩ := r
    simp only [Except.map]
    rw [List.getLast?_map]
    cases stk.getLast? with
    | none => rfl
    | some f => simp [fragShift]

/-- C7: ` infix_to_postfix` is deterministic (a pure function of its
input), and two `build_nfa` runs on the same postfix string with
independent initial state counters `c0`, `c1` agree on failure and, on
success, produce automatons isomorphic up to the state renaming
`n ↦ n - c0 + c1`: same transition count, same labels, same structure.
All state identifiers of the first run are ≥ `c0` and the renaming is
injective on such identifiers, so it is a genuine isomorphism. -/
theorem c7_round_trip_determinism :
    ∀ (s : List Char) (c0 c1 : Nat),
    infix_to_postfix s = infix_to_postfix s ∧
    (∀ e : BuildError,
      build_nfa c0 ( infix_to_postfix s) = .error e ↔
        build_nfa c1 ( infix_to_postfix s) = .error e) ∧
    (∀ (st en : Nat) (ts : List (Nat × Char × Nat)),
      build_nfa c0 ( infix_to_postfix s) = .ok (st, en, ts) →
      build_nfa c1 ( infix_to_postfix s) =
          .ok (st - c0 + c1, en - c0 + c1,
            ts.map (fun t => (t.1 - c0 + c1, t.2.1, t.2.2 - c0 + c1))) ∧
        c0 ≤ st ∧ c0 ≤ en ∧ ∀ t ∈ ts, c0 ≤ t.1 ∧ c0 ≤ t.2.2) ∧
    (∀ m n : Nat, c0 ≤ m → c0 ≤ n → m - c0 + c1 = n - c0 + c1 → m = n) := by
  intro s c0 c1
  refine ⟨rfl, ?_, ?_, ?_⟩
  · intro e
    rw [build_nfa_shift c0, build_nfa_shift c1]
    cases build_nfa 0 ( infix_to_postfix s) with
    | error e2 => simp [Except.map]
    | ok r => simp [Except.map]
  · intro st en ts h
    rw [build_nfa_shift c0] at h
    rw [build_nfa_shift c1]
    cases hb : build_nfa 0 ( infix_to_postfix s) with
    | error e => rw [hb] at h; simp [Except.map] at h
    | ok r =>
      obtain ⟨st0, en0, ts0⟩ := r
      rw [hb] at h
      simp only [Except.map] at h ⊢
      injection h with hpair
      injection hpair with h1 hrest
      injection hrest with h2 h3
      subst h1; subst h2; subst h3
      refine ⟨?_, Nat.le_add_left c0 st0, Nat.le_add_left c0 en0, ?_⟩
      · have e1 : st0 + c0 - c0 + c1 = st0 + c1 := by omega
        have e2 : en0 + c0 - c0 + c1 = en0 + c1 := by omega
        have e3 : (ts0.map (transShift c0)).map
              (fun t => (t.1 - c0 + c1, t.2.1, t.2.2 - c0 + c1)) =
            ts0.map (transShift c1) := by
          rw [List.map_map]
          refine List.map_congr_left ?_
          intro t _
          simp only [Function.comp_apply, transShift, Prod.mk.injEq]
          refine ⟨by omega, trivial, by omega⟩
        rw [e1, e2, e3]
      · intro t ht
        rcases List.mem_map.mp ht with ⟨t0, _, rfl⟩
        exact ⟨Nat.le_add_left c0 t0.1, Nat.le_add_left c0 t0.2.2⟩
  · intro m n hm hn h
    omega

/-- Witness for C7 at `s = "a"`, `c0 = 0`, `c1 = 5`. -/
theorem c7_round_trip_determinism_witness :
    build_nfa 5 ( infix_to_postfix ['a']) = .ok (5, 6, [(5, 'a', 6)]) := by
  have h := ((c7_round_trip_determinism ['a'] 0 5).2.2.1 0 1 [(0, 'a', 1)] rfl).1
  simpa using h

lemma fragBound_mono {n m : Nat} (hnm : n ≤ m) {f : Frag} (h : fragBound n f) :
    fragBound m f := by
  obtain ⟨h1, h2, h3⟩ := h
  refine ⟨lt_of_lt_of_le h1 hnm, lt_of_lt_of_le h2 hnm, ?_⟩
  intro t ht
  exact ⟨lt_of_lt_of_le (h3 t ht).1 hnm, lt_of_lt_of_le (h3 t ht).2 hnm⟩

lemma transBound_mk (n a b : Nat) (c : Char) :
    transBound n (a, c, b) ↔ a < n ∧ b < n := Iff.rfl

lemma fragBound_mk (n e x : Nat) (ts : List (Nat × Char × Nat)) :
    fragBound n (⟨e, x, ts⟩ : Frag) ↔ e < n ∧ x < n ∧ ∀ t ∈ ts, transBound n t := Iff.rfl

lemma buildLoop_bound (cs : List Char) :
    ∀ (stack : List Frag) (cnt : Nat) (stk' : List Frag) (cnt' : Nat),
      buildLoop cs stack cnt = .ok (stk', cnt') →
      (∀ f ∈ stack, fragBound cnt f) →
      cnt ≤ cnt' ∧ ∀ f ∈ stk', fragBound cnt' f := by
  induction cs with
  | nil =>
    intro stack cnt stk' cnt' h hb
    simp only [buildLoop] at h
    injection h with hpair
    injection hpair with h1 h2
    subst h1; subst h2
    exact ⟨Nat.le_refl cnt, hb⟩
  | cons c rest ih =>
    intro stack cnt stk' cnt' h hb
    simp only [buildLoop] at h
    by_cases h1 : c ≠ '*' ∧ c ≠ '|' ∧ c ≠ '.'
    · rw [if_pos h1] at h
      have hb2 : ∀ f ∈ (⟨cnt, cnt + 1, [(cnt, c, cnt + 1)]⟩ : Frag) :: stack,
          fragBound (cnt + 2) f := by
        intro f hf
        rcases List.mem_cons.mp hf with rfl | hf
        · simp only [fragBound_mk]
          refine ⟨by omega, by omega, ?_⟩
          intro t ht
          simp only [List.mem_singleton] at ht
          subst ht
          simp only [transBound_mk]
          omega
        · exact fragBound_mono (by omega) (hb f hf)
      obtain ⟨hle, hstk⟩ := ih _ _ _ _ h hb2
      exact ⟨by omega, hstk⟩
    · rw [if_neg h1] at h
      by_cases h2 : c = '.'
      · rw [if_pos h2] at h
        rcases stack with _ | ⟨s2, _ | ⟨s1, rest'⟩⟩
        · exact absurd h (by simp)
        · exact absurd h (by simp)
        · obtain ⟨he2, hx2, htr2⟩ := hb s2 (by simp)
          obtain ⟨he1, hx1, htr1⟩ := hb s1 (by simp)
          have hb2 : ∀ f ∈ (⟨s1.entry, s2.exit,
              s1.trans ++ [(s1.exit, eps, s2.entry)] ++ s2.trans⟩ : Frag) :: rest',
              fragBound cnt f := by
            intro f hf
            rcases List.mem_cons.mp hf with rfl | hf
            · simp only [fragBound_mk]
              refine ⟨he1, hx2, ?_⟩
              intro t ht
              simp only [List.append_assoc, List.mem_append, List.mem_cons,
                List.not_mem_nil, or_false] at ht
              rcases ht with ht | ht | ht
              · exact htr1 t ht
              · subst ht
                simp only [transBound_mk]
                omega
              · exact htr2 t ht
            · exact hb f (by simp [hf])
          exact ih _ _ _ _ h hb2
      · rw [if_neg h2] at h
        by_cases h3 : c = '|'
        · rw [if_pos h3] at h
          rcases stack with _ | ⟨s2, _ | ⟨s1, rest'⟩⟩
          · exact absurd h (by simp)
          · exact absurd h (by simp)
          · obtain ⟨he2, hx2, htr2⟩ := hb s2 (by simp)
            obtain ⟨he1, hx1, htr1⟩ := hb s1 (by simp)
            have hb2 : ∀ f ∈ (⟨cnt, cnt + 1,
                [(cnt, eps, s1.entry), (cnt, eps, s2.entry)] ++ s1.trans ++ s2.trans ++
                  [(s1.exit, eps, cnt + 1), (s2.exit, eps, cnt + 1)]⟩ : Frag) :: rest',
                fragBound (cnt + 2) f := by
              intro f hf
              rcases List.mem_cons.mp hf with rfl | hf
              · simp only [fragBound_mk]
                refine ⟨by omega, by omega, ?_⟩
                intro t ht
                simp only [List.append_assoc, List.mem_append, List.mem_cons,
                  List.not_mem_nil, or_false] at ht
                rcases ht with (ht | ht) | ht | ht | (ht | ht)
                · subst ht; simp only [transBound_mk]; omega
                · subst ht; simp only [transBound_mk]; omega
                · exact ⟨lt_of_lt_of_le (htr1 t ht).1 (by omega),
                    lt_of_lt_of_le (htr1 t ht).2 (by omega)⟩
                · exact ⟨lt_of_lt_of_le (htr2 t ht).1 (by omega),
                    lt_of_lt_of_le (htr2 t ht).2 (by omega)⟩
                · subst ht; simp only [transBound_mk]; omega
                · subst ht; simp only [transBound_mk]; omega
              · exact fragBound_mono (by omega) (hb f (by simp [hf]))
            obtain ⟨hle, hstk⟩ := ih _ _ _ _ h hb2
            exact ⟨by omega, hstk⟩
        · rw [if_neg h3] at h
          rcases stack with _ | ⟨s, rest'⟩
          · exact absurd h (by simp)
          · obtain ⟨he, hx, htr⟩ := hb s (by simp)
            have hb2 : ∀ f ∈ (⟨cnt, cnt + 1,
                [(cnt, eps, s.entry), (cnt, eps, cnt + 1)] ++ s.trans ++
                  [(s.exit, eps, s.entry), (s.exit, eps, cnt + 1)]⟩ : Frag) :: rest',
                fragBound (cnt + 2) f := by
              intro f hf
              rcases List.mem_cons.mp hf with rfl | hf
              · simp only [fragBound_mk]
                refine ⟨by omega, by omega, ?_⟩
                intro t ht
                simp only [List.append_assoc, List.mem_append, List.mem_cons,
                  List.not_mem_nil, or_false] at ht
                rcases ht with (ht | ht) | ht | (ht | ht)
                · subst ht; simp only [transBound_mk]; omega
                · subst ht; simp only [transBound_mk]; omega
                · exact ⟨lt_of_lt_of_le (htr t ht).1 (by omega),
                    lt_of_lt_of_le (htr t ht).2 (by omega)⟩
                · subst ht; simp only [transBound_mk]; omega
                · subst ht; simp only [transBound_mk]; omega
              · exact fragBound_mono (by omega) (hb f (by simp [hf]))
            obtain ⟨hle, hstk⟩ := ih _ _ _ _ h hb2
            exact ⟨by omega, hstk⟩

/-- C8: for a successful build invocation started at counter `c0` and
finishing at counter `cf`, every state identifier appearing as source or
destination of a transition in the result lies in `[c0, cf)` — i.e. it was
handed out by this invocation's counter — and the identifiers handed out,
`c0, c0+1, …, cf-1` (the counter is bumped by one at each `State()`
creation, monotonically, never reused), are pairwise distinct. -/
theorem c8_state_identifiers :
    ∀ (p : List Char) (c0 : Nat) (stk : List Frag) (cf : Nat) (st en : Nat)
      (ts : List (Nat × Char × Nat)),
    buildLoop p [] c0 = .ok (stk, cf) →
    build_nfa c0 p = .ok (st, en, ts) →
    c0 ≤ cf ∧
    (∀ t ∈ ts, (c0 ≤ t.1 ∧ t.1 < cf) ∧ (c0 ≤ t.2.2 ∧ t.2.2 < cf)) ∧
    (List.range' c0 (cf - c0)).Nodup := by
  intro p c0 stk cf st en ts hloop hbuild
  have hcopy := hbuild
  obtain ⟨hle, hstk⟩ := buildLoop_bound p [] c0 stk cf hloop (by simp)
  unfold build_nfa at hbuild
  rw [hloop] at hbuild
  dsimp only at hbuild
  cases hl : stk.getLast? with
  | none =>
    rw [hl] at hbuild
    exact absurd hbuild (by simp)
  | some f =>
    rw [hl] at hbuild
    dsimp only at hbuild
    injection hbuild with hpair
    injection hpair with h1 h3
    injection h3 with h2 h4
    have hmem : f ∈ stk := List.mem_of_getLast?_eq_some hl
    have hfb := hstk f hmem
    have hshift := build_nfa_shift c0 p
    rw [hcopy] at hshift
    cases hb1 : build_nfa 0 p with
    | error e =>
      rw [hb1] at hshift
      simp [Except.map] at hshift
    | ok r =>
      obtain ⟨st0, en0, ts0⟩ := r
      rw [hb1] at hshift
      simp only [Except.map] at hshift
      injection hshift with hpair2
      injection hpair2 with g1 g3
      injection g3 with g2 g4
      refine ⟨hle, ?_, List.nodup_range' c0 (cf - c0)⟩
      intro t ht
      have htf : t ∈ f.trans := by rw [h4]; exact ht
      have hup := hfb.2.2 t htf
      have hl2 : t ∈ ts0.map (transShift c0) := g4 ▸ ht
      rcases List.mem_map.mp hl2 with ⟨t0, _, rfl⟩
      exact ⟨⟨Nat.le_add_left c0 t0.1, hup.1⟩, ⟨Nat.le_add_left c0 t0.2.2, hup.2⟩⟩

/-- Witness for C8 at `p = "a"`, `c0 = 0` (final counter 2). -/
theorem c8_state_identifiers_witness :
    (0 : Nat) ≤ 2 ∧
    (∀ t ∈ [((0 : Nat), 'a', (1 : Nat))],
      ((0 ≤ t.1 ∧ t.1 < 2) ∧ (0 ≤ t.2.2 ∧ t.2.2 < 2))) ∧
    (List.range' 0 (2 - 0)).Nodup :=
  c8_state_identifiers ['a'] 0 [⟨0, 1, [(0, 'a', 1)]⟩] 2 0 1 [(0, 'a', 1)] rfl rfl
